import Mathlib

/-
Verification of `src/z3/inv.py`: division by invariant multiplication.

The script searches for a pair (multiplier `a`, shift `s`) such that for a
fixed unsigned divisor and bit width, `x / divisor == low_W((a * x) >> s)`
for every `W`-bit `x`, where the product is taken in `2W`-bit precision.
The satisfiability questions are delegated to z3; we model z3 outcomes as
explicit data (`sat model / unsat / unknown`) together with soundness
predicates stating what a correct solver answer means for the formula the
script actually builds.

All bit-vector arithmetic (z3 `BitVec`s of width `bits`, `ZeroExt`, `LShR`,
`Extract`, `UDiv`, signed comparisons) is embedded over `Nat`/`Int` with
explicit `% 2 ^ bits` truncation, matching the z3py semantics of the exact
expressions used in the source.
-/

set_option maxRecDepth 100000

namespace Inv

/-- A candidate returned by the search: the Python dict
`{multiplier: ..., shift: ...}` built in `find_constants` / `simple`. -/
structure Candidate where
  multiplier : ℕ
  shift : ℕ
deriving DecidableEq

/-- z3 `UDiv(x, d)` on `bits`-wide bit-vectors: unsigned division, with the
z3 convention that division by zero yields the all-ones value. Operands are
the values of `bits`-wide vectors, hence reduced `% 2 ^ bits`. -/
def udiv (bits x d : ℕ) : ℕ :=
  if d % 2 ^ bits = 0 then 2 ^ bits - 1 else (x % 2 ^ bits) / (d % 2 ^ bits)

/-- The right-hand side of the correctness equality in `find_constants` and
`check_solution`:
`Extract(bits-1, 0, LShR(ZeroExt(bits, a) * ZeroExt(bits, x), ZeroExt(bits, shift)))`.
`a`, `x` and `shift` are values of `bits`-wide vectors (reduced `% 2 ^ bits`),
the product lives in a `2*bits`-wide vector (reduced `% 2 ^ (2*bits)`),
`LShR` is logical right shift (division by a power of two, yielding `0` for
shift amounts at or above `2*bits`), and `Extract` keeps the low `bits` bits. -/
def mulShift (bits a s x : ℕ) : ℕ :=
  ((((a % 2 ^ bits) * (x % 2 ^ bits)) % 2 ^ (2 * bits)) >>> (s % 2 ^ bits)) % 2 ^ bits

/-- The Boolean value of the equality
`UDiv(x, div) == Extract(bits - 1, 0, LShR(ZeroExt(bits, a) * ZeroExt(bits, x), ZeroExt(bits, shift)))`
shared verbatim by `find_constants` (inside the `ForAll`) and
`check_solution` (negated). -/
def divEq (div bits a s x : ℕ) : Bool :=
  udiv bits x div == mulShift bits a s x

/-- Outcome of the z3 query issued by `check_solution`: `sat` carries the
model value of the `bits`-wide variable `x`. -/
inductive VOutcome where
  | sat (x : ℕ)
  | unsat
  | unknown

/-- The formula `check_solution` hands to z3, as a predicate on the model
value of `x`: `UDiv(x, div) != Extract(...)` where the multiplier and shift
are the concrete values of the module-level `solution` binding (note: not of
the `sol` parameter). -/
def checkQuery (solution : Candidate) (divisor bits x : ℕ) : Bool :=
  !divEq divisor bits solution.multiplier solution.shift x

/-- Soundness of a z3 answer to `check_solution`'s query: a `sat` model is a
`bits`-wide value satisfying the disequality, `unsat` means no `bits`-wide
value satisfies it, and `unknown` promises nothing. -/
def VSound (solution : Candidate) (divisor bits : ℕ) : VOutcome → Prop
  | .sat x => x < 2 ^ bits ∧ checkQuery solution divisor bits x = true
  | .unsat => ∀ x < 2 ^ bits, checkQuery solution divisor bits x = false
  | .unknown => True

instance (solution : Candidate) (divisor bits : ℕ) (o : VOutcome) :
    Decidable (VSound solution divisor bits o) :=
  match o with
  | .sat x =>
      inferInstanceAs (Decidable (x < 2 ^ bits ∧ checkQuery solution divisor bits x = true))
  | .unsat =>
      inferInstanceAs (Decidable (∀ x < 2 ^ bits, checkQuery solution divisor bits x = false))
  | .unknown => inferInstanceAs (Decidable True)

/-- What `check_solution` reports on each branch: `unsat` prints
`correct: sol` and returns `True`; `sat` extracts the model value `x` and
prints `Counter-example found: x = ..: e != d` where
`e = x // divisor` and `d = (x * sol.multiplier & (2^bits - 1)) >> sol.shift`
(both computed from the `sol` argument, and with the product masked to
`bits` bits before the shift); `unknown` prints `Verification timeout`. -/
inductive CheckReport where
  | accepted (sol : Candidate)
  | rejected (x expected computed : ℕ)
  | timeout
deriving DecidableEq

/-- Model of `check_solution sol divisor bits` applied to a z3 outcome for
its query: the returned Boolean together with what is printed. -/
def checkSolution (sol : Candidate) (divisor bits : ℕ) : VOutcome → Bool × CheckReport
  | .unsat => (true, .accepted sol)
  | .sat x =>
      (false, .rejected x (x / divisor) (((x * sol.multiplier) % 2 ^ bits) >>> sol.shift))
  | .unknown => (false, .timeout)

/-- A full call of `check_solution` with a deterministic solver: the solver
is a function from the query (which is built from the module-level
`solution`) to an outcome; `sol` enters only the branch bodies. -/
def checkSolutionRun (oracleFn : (ℕ → Bool) → VOutcome) (sol solution : Candidate)
    (divisor bits : ℕ) : Bool × CheckReport :=
  checkSolution sol divisor bits (oracleFn (checkQuery solution divisor bits))

/-- Signed reading of the value of a `w`-bit vector, used because z3py's
bare `>=` and `<` on `BitVec`s are the signed comparisons `bvsge`/`bvslt`. -/
def toSigned (w v : ℕ) : ℤ :=
  if v % 2 ^ w < 2 ^ (w - 1) then ((v % 2 ^ w : ℕ) : ℤ)
  else ((v % 2 ^ w : ℕ) : ℤ) - ((2 ^ w : ℕ) : ℤ)

/-- The two constraints `find_constants` puts on the `bits`-wide shift
variable: `shift >= 0` and `shift < 2*bits`, both signed comparisons, with
the Python integer `2*bits` coerced to a `bits`-wide `BitVecVal`
(hence reduced `% 2 ^ bits`). -/
def shiftConstraint (bits s : ℕ) : Bool :=
  decide (0 ≤ toSigned bits s) && decide (toSigned bits s < toSigned bits (2 * bits))

/-- The optional range constraint of `find_constants`:
`ULE(min_a, a)` and `ULT(a, max_a)` with the Python integers `min_a`,
`max_a` coerced to `bits`-wide `BitVecVal`s (reduced `% 2 ^ bits`). -/
def rangeConstraint (bits : ℕ) (r : Option (ℕ × ℕ)) (a : ℕ) : Bool :=
  match r with
  | none => true
  | some (lo, hi) =>
      decide (lo % 2 ^ bits ≤ a % 2 ^ bits) && decide (a % 2 ^ bits < hi % 2 ^ bits)

/-- The full constraint set of `find_constants div bits range` on a model,
i.e. on values of the `bits`-wide variables `a` and `s`: the shift
constraints, the optional range constraint on `a`, and
`ForAll([x], equality)`. -/
def findConstraints (div bits : ℕ) (r : Option (ℕ × ℕ)) (a s : ℕ) : Prop :=
  a < 2 ^ bits ∧ s < 2 ^ bits ∧
  shiftConstraint bits s = true ∧
  rangeConstraint bits r a = true ∧
  ∀ x < 2 ^ bits, divEq div bits a s x = true

instance (div bits : ℕ) (r : Option (ℕ × ℕ)) (a s : ℕ) :
    Decidable (findConstraints div bits r a s) :=
  inferInstanceAs (Decidable (_ ∧ _ ∧ _ ∧ _ ∧ ∀ x < 2 ^ bits, divEq div bits a s x = true))

/-- Outcome of the z3 query issued by `find_constants`: a `sat` answer
carries the model values of `a` and `s`. -/
inductive FOutcome where
  | sat (a s : ℕ)
  | unsat
  | unknown

/-- Soundness of a z3 answer to `find_constants`' query. -/
def FSound (div bits : ℕ) (r : Option (ℕ × ℕ)) : FOutcome → Prop
  | .sat a s => findConstraints div bits r a s
  | .unsat => ¬ ∃ a s, findConstraints div bits r a s
  | .unknown => True

/-- The value `find_constants` returns for each solver outcome: the
candidate dict read off the model on `sat`, and `None` otherwise (the
source's `else: return None` covers both `unsat` and `unknown`). -/
def findConstantsResult : FOutcome → Option Candidate
  | .sat a s => some ⟨a, s⟩
  | .unsat => none
  | .unknown => none

/-- `part_num = 1024 * cpus` in `find_parallel`. -/
def partNum (cpus : ℕ) : ℕ := 1024 * cpus

/-- `part_size = max_value // part_num` with `max_value = 2 ** bits`. -/
def partSize (bits cpus : ℕ) : ℕ := 2 ^ bits / partNum cpus

/-- `start = i * part_size` for partition `i` of `find_parallel`. -/
def rangeStart (bits cpus i : ℕ) : ℕ := i * partSize bits cpus

/-- `end = (i + 1) * part_size if i < part_num - 1 else max_value` for
partition `i` of `find_parallel`. -/
def rangeEnd (bits cpus i : ℕ) : ℕ :=
  if i < partNum cpus - 1 then (i + 1) * partSize bits cpus else 2 ^ bits

/-- The list of work descriptors `(div, bits, (start, end))` built by
`find_parallel`. -/
def ranges (div bits cpus : ℕ) : List (ℕ × ℕ × ℕ × ℕ) :=
  (List.range (partNum cpus)).map fun i =>
    (div, bits, rangeStart bits cpus i, rangeEnd bits cpus i)

/-- `find_parallel`'s aggregation, with the solver behaviour on partition
`i` given by `oracle i`: `pool.map(find_constants_2, ranges)` followed by
`list(filter(lambda x: x, results))` (dropping the `None`s; a returned
candidate dict is non-empty, hence always truthy). -/
def findParallelRun (div bits cpus : ℕ) (oracle : ℕ → FOutcome) : List Candidate :=
  (((List.range (partNum cpus)).map fun i => findConstantsResult (oracle i)).filterMap id)

/-- `constt = 0x1234567 * divisor` in `simple`. -/
def simpleConstt (div : ℕ) : ℕ := 0x1234567 * div

/-- Python 3 true division `a / b` of two non-negative ints, as an exact
rational. (The concrete quotient `simple` computes, `(0x1234567 * d) / d`,
is exactly the integer `0x1234567`, which is representable in double
precision, so the exact rational agrees with the Python float.) -/
def pyTrueDiv (a b : ℕ) : ℚ := (a : ℚ) / (b : ℚ)

/-- Python `int(...)` truncation toward zero of a rational, as z3py's
`_to_int_str` applies it to a float before building a numeral. -/
def pyInt (q : ℚ) : ℤ := Int.tdiv q.num (q.den : ℤ)

/-- The right-hand side of `simple`'s constraint as z3py builds it: the
Python float `constt / divisor` is cast to the `bits`-wide bit-vector sort
of the left-hand side via `BitVecVal(int(constt / divisor), bits)`
(z3py `BitVecSortRef.cast` on a non-expression calls `BitVecVal`, whose
`_to_int_str` truncates a float with `int`), hence reduced `% 2 ^ bits`. -/
def simpleRhs (div bits : ℕ) : ℕ :=
  (pyInt (pyTrueDiv (simpleConstt div) div)).toNat % 2 ^ bits

/-- `simple`'s single constraint `constt * m == constt / divisor` on a model
value of the `bits`-wide variable `m`: the Python int `constt` is coerced to
a `bits`-wide `BitVecVal` and the product is a `bits`-wide multiplication. -/
def simpleModelOk (div bits m : ℕ) : Bool :=
  ((simpleConstt div % 2 ^ bits) * (m % 2 ^ bits)) % 2 ^ bits == simpleRhs div bits

/-- Outcome of the z3 query issued by `simple`. -/
inductive SOutcome where
  | sat (m : ℕ)
  | unsat
  | unknown

/-- Soundness of a z3 answer to `simple`'s query. -/
def SimpleSound (div bits : ℕ) : SOutcome → Prop
  | .sat m => m < 2 ^ bits ∧ simpleModelOk div bits m = true
  | .unsat => ¬ ∃ m < 2 ^ bits, simpleModelOk div bits m = true
  | .unknown => True

/-- The value `simple` returns on each solver outcome: on `sat`, the dict
`{multiplier: model value of m, shift: 0}`; otherwise it prints the check
result and falls through (returns `None`). -/
def simpleResult : SOutcome → Option Candidate
  | .sat m => some ⟨m, 0⟩
  | .unsat => none
  | .unknown => none

/-- For a positive divisor, the right-hand side `simple` ends up asserting
is exactly the scaling constant `0x1234567` (reduced to the width): the
true quotient `(0x1234567 * div) / div` is the integer `0x1234567`, and the
float-to-int truncation leaves it unchanged. -/
lemma simpleRhs_eq (div bits : ℕ) (hdiv : 0 < div) :
    simpleRhs div bits = 0x1234567 % 2 ^ bits := by
  have hd : ((div : ℕ) : ℚ) ≠ 0 := Nat.cast_ne_zero.mpr hdiv.ne'
  have hq : pyTrueDiv (simpleConstt div) div = ((0x1234567 : ℕ) : ℚ) := by
    unfold pyTrueDiv simpleConstt
    push_cast
    rw [mul_div_assoc, div_self hd, mul_one]
  unfold simpleRhs
  rw [hq]
  simp [pyInt]

/-- Claim C6: for divisor 9 and width 8, the candidate (a = 57, s = 9)
verifies as Accepted: the correctness equality holds at every 8-bit input,
so the mismatch query is unsatisfiable — a sound `unsat` answer exists and
on it `check_solution` returns `True`. -/
theorem magic_57_9_accepted :
    (∀ x < 2 ^ 8, divEq 9 8 57 9 x = true) ∧
    VSound ⟨57, 9⟩ 9 8 VOutcome.unsat ∧
    (checkSolution ⟨57, 9⟩ 9 8 VOutcome.unsat).1 = true := by
  refine ⟨by decide, by decide, rfl⟩

theorem magic_57_9_accepted_witness :
    171 < 2 ^ 8 ∧ divEq 9 8 57 9 171 = true :=
  ⟨by decide, magic_57_9_accepted.1 171 (by decide)⟩

/-- Claim C7: for divisor 9 and width 8, the candidate (a = 1, s = 0) is
Rejected: x = 18 is a genuine model of the mismatch query (so no sound
solver can answer `unsat`, and `check_solution` returns `False` on every
sound outcome), and on the model x = 18 the code reports the counterexample
x = 18 with expected quotient 2 = 18 / 9 and computed value 18 = 18 >> 0. -/
theorem candidate_1_0_rejected_at_18 :
    VSound ⟨1, 0⟩ 9 8 (VOutcome.sat 18) ∧
    checkSolution ⟨1, 0⟩ 9 8 (VOutcome.sat 18) = (false, CheckReport.rejected 18 2 18) ∧
    (∀ o : VOutcome, VSound ⟨1, 0⟩ 9 8 o → (checkSolution ⟨1, 0⟩ 9 8 o).1 = false) := by
  refine ⟨by decide, by decide, ?_⟩
  intro o hs
  cases o with
  | sat x => rfl
  | unknown => rfl
  | unsat =>
      exfalso
      have h18 : checkQuery ⟨1, 0⟩ 9 8 18 = false := hs 18 (by decide)
      have h18t : checkQuery ⟨1, 0⟩ 9 8 18 = true := by decide
      rw [h18] at h18t
      exact Bool.false_ne_true h18t

theorem candidate_1_0_rejected_at_18_witness :
    VSound ⟨1, 0⟩ 9 8 (VOutcome.sat 18) ∧
    (checkSolution ⟨1, 0⟩ 9 8 (VOutcome.sat 18)).1 = false :=
  ⟨by decide, candidate_1_0_rejected_at_18.2.2 (VOutcome.sat 18) (by decide)⟩

/-- Claim C10: the accept/reject decision of `check_solution` is
independent of its `sol` parameter: with the divisor, width, module-level
`solution` binding and the (deterministic) solver fixed, two calls that
differ only in `sol` return the same Boolean, because the solver query is
built from `solution` while `sol` only enters the printed report. -/
theorem check_solution_ignores_sol_argument
    (oracleFn : (ℕ → Bool) → VOutcome) (sol1 sol2 solution : Candidate)
    (divisor bits : ℕ) :
    (checkSolutionRun oracleFn sol1 solution divisor bits).1 =
      (checkSolutionRun oracleFn sol2 solution divisor bits).1 := by
  unfold checkSolutionRun
  cases oracleFn (checkQuery solution divisor bits) <;> rfl

/-- Claim C3 (amended): an Unknown solver answer is never treated as
success — `check_solution` returns `False` on it (only `unsat` yields
`True`) and prints a distinct timeout message (its report differs from both
the accepted and the rejected report), and `find_constants` returns `None`
on it — but the Boolean return of `check_solution` on Unknown coincides
with its return on a rejected (`sat`) query, and the `None` returned by
`find_constants` on Unknown coincides with its `unsat` result: Unknown is
distinguishable from failure only in the printed output. -/
theorem unknown_never_treated_as_success (sol : Candidate) (divisor bits x a s : ℕ) :
    (checkSolution sol divisor bits VOutcome.unknown).1 = false ∧
    (checkSolution sol divisor bits VOutcome.unknown).1 ≠
      (checkSolution sol divisor bits VOutcome.unsat).1 ∧
    (checkSolution sol divisor bits VOutcome.unknown).2 = CheckReport.timeout ∧
    (checkSolution sol divisor bits (VOutcome.sat x)).2 ≠ CheckReport.timeout ∧
    (checkSolution sol divisor bits VOutcome.unsat).2 ≠ CheckReport.timeout ∧
    (checkSolution sol divisor bits VOutcome.unknown).1 =
      (checkSolution sol divisor bits (VOutcome.sat x)).1 ∧
    findConstantsResult FOutcome.unknown = none ∧
    findConstantsResult FOutcome.unknown ≠ findConstantsResult (FOutcome.sat a s) ∧
    findConstantsResult FOutcome.unknown = findConstantsResult FOutcome.unsat := by
  refine ⟨rfl, by simp [checkSolution], rfl, by simp [checkSolution],
    by simp [checkSolution], rfl, rfl, by simp [findConstantsResult], rfl⟩

/-- Claim C3 is false as stated: the result of `find_constants` on an
Unknown solver answer equals its result on an unsatisfiable one (both are
`None`), and the Boolean result of `check_solution` on Unknown equals its
result on a rejected/satisfiable query (both are `False`) — Unknown does
not yield a distinct outcome from failure in either function. -/
theorem unknown_conflated_with_failure :
    findConstantsResult FOutcome.unknown = findConstantsResult FOutcome.unsat ∧
    (checkSolution ⟨1, 0⟩ 9 8 VOutcome.unknown).1 =
      (checkSolution ⟨1, 0⟩ 9 8 (VOutcome.sat 18)).1 :=
  ⟨rfl, rfl⟩

/-- Claim C1 (amended): when the candidate under test is the module-level
`solution` binding (`sol = solution`, as in the script's entry point), an
Accepted verdict of `check_solution` under a sound solver answer implies
that the correctness equality holds at every `bits`-wide input for that
candidate: `True` is returned only on `unsat`, whose soundness is exactly
the universal equality. -/
theorem verifier_accepts_only_correct_candidates
    (sol solution : Candidate) (divisor bits : ℕ) (o : VOutcome)
    (hglobal : sol = solution) (hsound : VSound solution divisor bits o)
    (hacc : (checkSolution sol divisor bits o).1 = true) :
    ∀ x < 2 ^ bits, divEq divisor bits sol.multiplier sol.shift x = true := by
  subst hglobal
  cases o with
  | unsat =>
      intro x hx
      have h : checkQuery sol divisor bits x = false := hsound x hx
      simpa [checkQuery] using h
  | sat x => exact absurd hacc (by simp [checkSolution])
  | unknown => exact absurd hacc (by simp [checkSolution])

theorem verifier_accepts_only_correct_candidates_witness :
    (⟨57, 9⟩ : Candidate) = ⟨57, 9⟩ ∧
    VSound ⟨57, 9⟩ 9 8 VOutcome.unsat ∧
    (checkSolution ⟨57, 9⟩ 9 8 VOutcome.unsat).1 = true ∧
    ∀ x < 2 ^ 8, divEq 9 8 (Candidate.mk 57 9).multiplier (Candidate.mk 57 9).shift x = true :=
  ⟨rfl, by decide, by decide,
    verifier_accepts_only_correct_candidates ⟨57, 9⟩ ⟨57, 9⟩ 9 8 VOutcome.unsat rfl
      (by decide) (by decide)⟩

/-- Claim C1 is false as stated: `check_solution` builds its query from the
module-level `solution` binding, not from its `sol` parameter, so with
`solution = (57, 9)` (whose query is soundly unsatisfiable) the call with
the candidate `sol = (1, 0)` returns `True` — reporting `(1, 0)` as correct
— even though `(1, 0)` violates the equality at the 8-bit input 18. -/
theorem verifier_accepts_wrong_sol_argument :
    VSound ⟨57, 9⟩ 9 8 VOutcome.unsat ∧
    (checkSolution ⟨1, 0⟩ 9 8 VOutcome.unsat).1 = true ∧
    (checkSolution ⟨1, 0⟩ 9 8 VOutcome.unsat).2 = CheckReport.accepted ⟨1, 0⟩ ∧
    18 < 2 ^ 8 ∧ divEq 9 8 1 0 18 = false :=
  ⟨by decide, rfl, rfl, by decide, by decide⟩

/-- Claim C4 (amended): when `check_solution` rejects the candidate `sol`
(run with `solution = sol`, as in the script's entry point) on a sound
`sat` answer with model `x`, then `x` is a genuine `bits`-wide
counterexample to the 2W-bit-precision correctness equality, and the
printed report carries `expected = x / divisor` and
`computed = ((x * a) % 2 ^ bits) >> s` — the code masks the product to
`bits` bits before shifting, rather than truncating the shifted 2W-bit
product, and the printed pair need not satisfy `expected != computed`. -/
theorem reject_report_values (sol : Candidate) (divisor bits x : ℕ)
    (hsound : VSound sol divisor bits (VOutcome.sat x)) :
    checkSolution sol divisor bits (VOutcome.sat x) =
      (false, CheckReport.rejected x (x / divisor)
        (((x * sol.multiplier) % 2 ^ bits) >>> sol.shift)) ∧
    x < 2 ^ bits ∧
    divEq divisor bits sol.multiplier sol.shift x = false := by
  obtain ⟨hx, hq⟩ := hsound
  refine ⟨rfl, hx, ?_⟩
  simpa [checkQuery] using hq

theorem reject_report_values_witness :
    VSound ⟨1, 0⟩ 9 8 (VOutcome.sat 18) ∧
    (checkSolution ⟨1, 0⟩ 9 8 (VOutcome.sat 18) =
      (false, CheckReport.rejected 18 (18 / 9)
        (((18 * (Candidate.mk 1 0).multiplier) % 2 ^ 8) >>> (Candidate.mk 1 0).shift)) ∧
    18 < 2 ^ 8 ∧
    divEq 9 8 (Candidate.mk 1 0).multiplier (Candidate.mk 1 0).shift 18 = false) :=
  ⟨by decide, reject_report_values ⟨1, 0⟩ 9 8 18 (by decide)⟩

/-- Claim C4 is false as stated: for divisor 17, width 8 and the candidate
(a = 16, s = 8), the model x = 16 is a sound counterexample (16 / 17 = 0
while the 2W-bit formula value is 1), but the report prints expected = 0
and computed = 0: the printed computed value masks the product to 8 bits
before shifting — `(16 * 16) % 256 = 0`, then `0 >> 8 = 0` — which differs
from `truncate_low_W((16 * 16) >> 8) = 1`, and the printed values violate
`expected != computed` since `0 = 0`. -/
theorem reject_report_masks_before_shift :
    VSound ⟨16, 8⟩ 17 8 (VOutcome.sat 16) ∧
    checkSolution ⟨16, 8⟩ 17 8 (VOutcome.sat 16) =
      (false, CheckReport.rejected 16 0 0) ∧
    mulShift 8 16 8 16 = 1 :=
  ⟨by decide, by decide, by decide⟩

/-- For widths of at least 5, twice the width fits strictly under
`2 ^ (width - 1)`, so the signed shift comparisons behave as unsigned. -/
lemma two_mul_lt_pow_pred {w : ℕ} (hw : 5 ≤ w) : 2 * w < 2 ^ (w - 1) := by
  induction w with
  | zero => omega
  | succ k ih =>
      rcases Nat.lt_or_ge k 5 with h5 | h5
      · have hk : k = 4 := by omega
        subst hk
        decide
      · have ihk := ih h5
        have h1 : 2 ^ (k - 1) * 2 = 2 ^ k := by
          rw [← pow_succ]
          congr 1
          omega
        have h2 : 2 ≤ 2 ^ (k - 1) := by
          calc 2 = 2 ^ 1 := rfl
            _ ≤ 2 ^ (k - 1) := Nat.pow_le_pow_right (by norm_num) (by omega)
        have hk1 : k + 1 - 1 = k := by omega
        rw [hk1]
        omega

/-- On a `w`-bit vector value below `2 ^ (w - 1)`, the signed reading is
the value itself. -/
lemma toSigned_of_lt {w v : ℕ} (hv : v < 2 ^ (w - 1)) (hv2 : v < 2 ^ w) :
    toSigned w v = (v : ℤ) := by
  unfold toSigned
  rw [Nat.mod_eq_of_lt hv2, if_pos hv]

/-- Claim C8 (amended): for every width of at least 5, a `bits`-wide shift
value satisfies `find_constants`' two (signed) shift constraints exactly
when it lies in `[0, 2 * bits)`, and consequently every candidate a sound
`sat` answer makes `find_constants` return has its shift in `[0, 2 * bits)`.
For widths 1 through 4 this fails: the comparisons `shift >= 0` and
`shift < 2 * bits` are signed, so e.g. at width 3 the value 4 reads as -4
and is excluded, and at widths 1, 2 and 4 the literal `2 * bits` wraps or
becomes negative, leaving no admissible shift at all. -/
theorem shift_constraint_range (bits : ℕ) (hb : 5 ≤ bits) :
    (∀ s < 2 ^ bits, (shiftConstraint bits s = true ↔ s < 2 * bits)) ∧
    (∀ div : ℕ, ∀ r : Option (ℕ × ℕ), ∀ o : FOutcome, FSound div bits r o →
      ∀ c ∈ findConstantsResult o, c.shift < 2 * bits) := by
  have hp : 2 * bits < 2 ^ (bits - 1) := two_mul_lt_pow_pred hb
  have hpow : 2 ^ (bits - 1) < 2 ^ bits :=
    Nat.pow_lt_pow_right (by norm_num) (by omega)
  have hmain : ∀ s < 2 ^ bits, (shiftConstraint bits s = true ↔ s < 2 * bits) := by
    intro s hs
    have h2b : toSigned bits (2 * bits) = ((2 * bits : ℕ) : ℤ) :=
      toSigned_of_lt hp (by omega)
    unfold shiftConstraint
    rw [h2b, Bool.and_eq_true, decide_eq_true_iff, decide_eq_true_iff]
    by_cases hcase : s < 2 ^ (bits - 1)
    · rw [toSigned_of_lt hcase hs]
      constructor
      · rintro ⟨-, hlt⟩
        exact_mod_cast hlt
      · intro hlt
        exact ⟨by positivity, by exact_mod_cast hlt⟩
    · unfold toSigned
      rw [Nat.mod_eq_of_lt hs, if_neg hcase]
      constructor
      · rintro ⟨hge, -⟩
        exfalso
        have : ((s : ℕ) : ℤ) < ((2 ^ bits : ℕ) : ℤ) := by exact_mod_cast hs
        omega
      · intro hlt
        omega
  refine ⟨hmain, ?_⟩
  intro div r o hsound c hc
  cases o with
  | sat a s =>
      have hc2 : (⟨a, s⟩ : Candidate) = c := by
        simpa [findConstantsResult] using hc
      subst hc2
      obtain ⟨-, hs2, hsc, -, -⟩ := hsound
      exact (hmain s hs2).mp hsc
  | unsat => simp [findConstantsResult] at hc
  | unknown => simp [findConstantsResult] at hc

theorem shift_constraint_range_witness :
    5 ≤ 8 ∧
    (∀ s < 2 ^ 8, (shiftConstraint 8 s = true ↔ s < 2 * 8)) ∧
    (∀ div : ℕ, ∀ r : Option (ℕ × ℕ), ∀ o : FOutcome, FSound div 8 r o →
      ∀ c ∈ findConstantsResult o, c.shift < 2 * 8) :=
  ⟨by norm_num, shift_constraint_range 8 (by norm_num)⟩

/-- Claim C8 is false as stated: at width 3 the shift value 4 lies in
`[0, 2 * 3) = [0, 6)` but does not satisfy the shift constraints, because
`shift >= 0` is the signed comparison and the 3-bit value 4 reads as -4. -/
theorem shift_constraint_fails_at_width_3 :
    4 < 2 * 3 ∧ 4 < 2 ^ 3 ∧ shiftConstraint 3 4 = false :=
  ⟨by decide, by decide, by decide⟩

/-- The end of an earlier partition never exceeds the start of a later
one. -/
lemma rangeEnd_le_rangeStart {bits cpus i j : ℕ} (hij : i < j) (hj : j < partNum cpus) :
    rangeEnd bits cpus i ≤ rangeStart bits cpus j := by
  have hi : i < partNum cpus - 1 := by omega
  rw [rangeEnd, if_pos hi, rangeStart]
  exact Nat.mul_le_mul_right _ (by omega)

/-- The last partition always ends exactly at `2 ^ bits`. -/
lemma rangeEnd_last (bits cpus : ℕ) :
    rangeEnd bits cpus (partNum cpus - 1) = 2 ^ bits := by
  rw [rangeEnd, if_neg (by omega)]

/-- All partition ends stay within the domain. -/
lemma rangeEnd_le_pow {bits cpus i : ℕ} (hi : i < partNum cpus) :
    rangeEnd bits cpus i ≤ 2 ^ bits := by
  by_cases hlast : i < partNum cpus - 1
  · rw [rangeEnd, if_pos hlast]
    calc (i + 1) * partSize bits cpus
        ≤ partNum cpus * partSize bits cpus := Nat.mul_le_mul_right _ (by omega)
      _ = partSize bits cpus * partNum cpus := Nat.mul_comm _ _
      _ ≤ 2 ^ bits := by rw [partSize]; exact Nat.div_mul_le_self _ _
  · rw [rangeEnd, if_neg hlast]

/-- Every point of `[0, 2 ^ bits)` lies in some partition. -/
lemma mem_some_range {bits cpus x : ℕ} (hc : 1 ≤ cpus) (hx : x < 2 ^ bits) :
    ∃ i, i < partNum cpus ∧ rangeStart bits cpus i ≤ x ∧ x < rangeEnd bits cpus i := by
  have hn : 0 < partNum cpus := Nat.mul_pos (by norm_num) hc
  by_cases hps : partSize bits cpus = 0
  · refine ⟨partNum cpus - 1, by omega, ?_, ?_⟩
    · simp [rangeStart, hps]
    · rw [rangeEnd_last]; exact hx
  · have hpsp : 0 < partSize bits cpus := Nat.pos_of_ne_zero hps
    by_cases hbig : x / partSize bits cpus < partNum cpus - 1
    · refine ⟨x / partSize bits cpus, by omega, ?_, ?_⟩
      · rw [rangeStart]
        exact Nat.div_mul_le_self x _
      · rw [rangeEnd, if_pos hbig]
        calc x = partSize bits cpus * (x / partSize bits cpus) + x % partSize bits cpus :=
              (Nat.div_add_mod x _).symm
          _ < partSize bits cpus * (x / partSize bits cpus) + partSize bits cpus := by
              have := Nat.mod_lt x hpsp
              omega
          _ = (x / partSize bits cpus + 1) * partSize bits cpus := by ring
    · refine ⟨partNum cpus - 1, by omega, ?_, ?_⟩
      · rw [rangeStart]
        calc (partNum cpus - 1) * partSize bits cpus
            ≤ (x / partSize bits cpus) * partSize bits cpus :=
              Nat.mul_le_mul_right _ (by omega)
          _ ≤ x := Nat.div_mul_le_self x _
      · rw [rangeEnd_last]; exact hx

/-- Claim C2: for every width and worker count of at least 1, the ranges
built by `find_parallel` (with `part_count = 1024 * cpus` and
`part_size = 2 ^ bits / part_count`) are pairwise disjoint, their union is
exactly `[0, 2 ^ bits)`, consecutive ranges meet with zero gap and zero
overlap (each range's end equals the next range's start), the first range
starts at 0, the last range ends exactly at `2 ^ bits`, and the work
descriptors are exactly these intervals tagged with the divisor and
width. -/
theorem find_parallel_ranges_partition (bits cpus : ℕ) (_hb : 1 ≤ bits) (hc : 1 ≤ cpus) :
    (∀ x, x < 2 ^ bits ↔
      ∃ i, i < partNum cpus ∧ rangeStart bits cpus i ≤ x ∧ x < rangeEnd bits cpus i) ∧
    (∀ i j, i < partNum cpus → j < partNum cpus → i ≠ j → ∀ x,
      ¬(rangeStart bits cpus i ≤ x ∧ x < rangeEnd bits cpus i ∧
        rangeStart bits cpus j ≤ x ∧ x < rangeEnd bits cpus j)) ∧
    (∀ i, i + 1 < partNum cpus → rangeEnd bits cpus i = rangeStart bits cpus (i + 1)) ∧
    rangeStart bits cpus 0 = 0 ∧
    rangeEnd bits cpus (partNum cpus - 1) = 2 ^ bits ∧
    ∀ div, ranges div bits cpus = (List.range (partNum cpus)).map
      fun i => (div, bits, rangeStart bits cpus i, rangeEnd bits cpus i) := by
  refine ⟨?_, ?_, ?_, ?_, rangeEnd_last bits cpus, fun div => rfl⟩
  · intro x
    constructor
    · exact mem_some_range hc
    · rintro ⟨i, hi, -, hend⟩
      exact Nat.lt_of_lt_of_le hend (rangeEnd_le_pow hi)
  · intro i j hi hj hij x
    rintro ⟨hsi, hei, hsj, hej⟩
    rcases Nat.lt_or_ge i j with h | h
    · have := @rangeEnd_le_rangeStart bits cpus i j h hj
      omega
    · have hji : j < i := by omega
      have := @rangeEnd_le_rangeStart bits cpus j i hji hi
      omega
  · intro i hi
    rw [rangeEnd, if_pos (by omega), rangeStart]
  · simp [rangeStart]

theorem find_parallel_ranges_partition_witness :
    1 ≤ 8 ∧ 1 ≤ 1 ∧
    ((∀ x, x < 2 ^ 8 ↔
      ∃ i, i < partNum 1 ∧ rangeStart 8 1 i ≤ x ∧ x < rangeEnd 8 1 i) ∧
    (∀ i j, i < partNum 1 → j < partNum 1 → i ≠ j → ∀ x,
      ¬(rangeStart 8 1 i ≤ x ∧ x < rangeEnd 8 1 i ∧
        rangeStart 8 1 j ≤ x ∧ x < rangeEnd 8 1 j)) ∧
    (∀ i, i + 1 < partNum 1 → rangeEnd 8 1 i = rangeStart 8 1 (i + 1)) ∧
    rangeStart 8 1 0 = 0 ∧
    rangeEnd 8 1 (partNum 1 - 1) = 2 ^ 8 ∧
    ∀ div, ranges div 8 1 = (List.range (partNum 1)).map
      fun i => (div, 8, rangeStart 8 1 i, rangeEnd 8 1 i)) :=
  ⟨by norm_num, by norm_num, find_parallel_ranges_partition 8 1 (by norm_num) (by norm_num)⟩

/-- Claim C5 (amended): `find_parallel` returns the oracle's satisfiable
results as they are, with no verification call between collection and
return; what holds is that under a sound oracle on every partition, each
returned candidate satisfies the universal correctness equality — because
the search formula itself contains `ForAll([x], equality)` — and would
therefore be accepted by the Verifier. Nothing in `find_parallel` filters
out a candidate the Verifier would reject. -/
theorem find_parallel_candidates_satisfy_equality
    (div bits cpus : ℕ) (oracle : ℕ → FOutcome)
    (hsound : ∀ i < partNum cpus,
      FSound div bits (some (rangeStart bits cpus i, rangeEnd bits cpus i)) (oracle i)) :
    ∀ c ∈ findParallelRun div bits cpus oracle,
      ∀ x < 2 ^ bits, divEq div bits c.multiplier c.shift x = true := by
  intro c hc
  unfold findParallelRun at hc
  rw [List.mem_filterMap] at hc
  obtain ⟨oc, hoc, hid⟩ := hc
  rw [List.mem_map] at hoc
  obtain ⟨i, hi, hoci⟩ := hoc
  rw [List.mem_range] at hi
  have hs := hsound i hi
  cases ho : oracle i with
  | sat a s =>
      rw [ho] at hs hoci
      have hoc2 : oc = some ⟨a, s⟩ := hoci.symm
      subst hoc2
      have hc2 : (⟨a, s⟩ : Candidate) = c := by simpa using hid
      subst hc2
      obtain ⟨-, -, -, -, hall⟩ := hs
      exact hall
  | unsat =>
      rw [ho] at hoci
      have hoc2 : oc = none := hoci.symm
      subst hoc2
      simp at hid
  | unknown =>
      rw [ho] at hoci
      have hoc2 : oc = none := hoci.symm
      subst hoc2
      simp at hid

theorem find_parallel_candidates_satisfy_equality_witness :
    (∀ i < partNum 1,
      FSound 2 10 (some (rangeStart 10 1 i, rangeEnd 10 1 i))
        (if i = 512 then FOutcome.sat 512 10 else FOutcome.unknown)) ∧
    ∀ c ∈ findParallelRun 2 10 1 (fun i => if i = 512 then FOutcome.sat 512 10 else FOutcome.unknown),
      ∀ x < 2 ^ 10, divEq 2 10 c.multiplier c.shift x = true := by
  have hsound : ∀ i < partNum 1,
      FSound 2 10 (some (rangeStart 10 1 i, rangeEnd 10 1 i))
        (if i = 512 then FOutcome.sat 512 10 else FOutcome.unknown) := by
    intro i hi
    by_cases h512 : i = 512
    · subst h512
      rw [if_pos rfl]
      show findConstraints 2 10 (some (rangeStart 10 1 512, rangeEnd 10 1 512)) 512 10
      decide
    · rw [if_neg h512]
      trivial
  exact ⟨hsound, find_parallel_candidates_satisfy_equality 2 10 1
    (fun i => if i = 512 then FOutcome.sat 512 10 else FOutcome.unknown) hsound⟩

/-- Claim C5 is false as stated: no candidate returned by `find_parallel`
has been passed to the Verifier — the function returns the oracle's `sat`
models unfiltered. In the run where the oracle answers `sat` with model
(a = 1, s = 0) on partition 0 for divisor 9 and width 8, the returned
collection contains the candidate (1, 0), even though the Verifier run on
that candidate soundly finds the counterexample x = 18 and does not accept
it. -/
theorem find_parallel_returns_unverified_candidate :
    findParallelRun 9 8 1 (fun i => if i = 0 then FOutcome.sat 1 0 else FOutcome.unknown) =
      [⟨1, 0⟩] ∧
    VSound ⟨1, 0⟩ 9 8 (VOutcome.sat 18) ∧
    (checkSolution ⟨1, 0⟩ 9 8 (VOutcome.sat 18)).1 = false := by
  refine ⟨?_, by decide, rfl⟩
  decide

/-- Claim C9: a candidate returned by `simple` always has shift 0, and
under a sound solver answer its multiplier satisfies
`m * 0x1234567 * div ≡ 0x1234567  (mod 2 ^ bits)`: z3py casts the Python-3
float `constt / divisor` to the bit-vector sort by truncating it to an int,
and that float is exactly the scaling constant `0x1234567`, which `div`
divides into `constt = 0x1234567 * div` by construction. -/
theorem simple_candidates_satisfy_equation
    (div bits : ℕ) (o : SOutcome) (hdiv : 0 < div) (hsound : SimpleSound div bits o) :
    ∀ c ∈ simpleResult o,
      c.shift = 0 ∧
      (c.multiplier * 0x1234567 * div) % 2 ^ bits = 0x1234567 % 2 ^ bits ∧
      div ∣ simpleConstt div := by
  intro c hc
  cases o with
  | sat m =>
      have hc2 : (⟨m, 0⟩ : Candidate) = c := by simpa [simpleResult] using hc
      subst hc2
      obtain ⟨-, hok⟩ := hsound
      refine ⟨rfl, ?_, dvd_mul_left div 0x1234567⟩
      have heq : ((simpleConstt div % 2 ^ bits) * (m % 2 ^ bits)) % 2 ^ bits =
          simpleRhs div bits := by
        simpa [simpleModelOk] using hok
      rw [simpleRhs_eq div bits hdiv] at heq
      calc (m * 0x1234567 * div) % 2 ^ bits
          = (simpleConstt div * m) % 2 ^ bits := by
            rw [simpleConstt]; ring_nf
        _ = ((simpleConstt div % 2 ^ bits) * (m % 2 ^ bits)) % 2 ^ bits := by
            rw [Nat.mul_mod]
        _ = 0x1234567 % 2 ^ bits := heq
  | unsat => simp [simpleResult] at hc
  | unknown => simp [simpleResult] at hc

theorem simple_candidates_satisfy_equation_witness :
    0 < 7 ∧ SimpleSound 7 4 (SOutcome.sat 7) ∧
    ∀ c ∈ simpleResult (SOutcome.sat 7),
      c.shift = 0 ∧
      (c.multiplier * 0x1234567 * 7) % 2 ^ 4 = 0x1234567 % 2 ^ 4 ∧
      7 ∣ simpleConstt 7 := by
  have hs : SimpleSound 7 4 (SOutcome.sat 7) := by
    refine ⟨by norm_num, ?_⟩
    rw [simpleModelOk, simpleRhs_eq 7 4 (by norm_num)]
    decide
  exact ⟨by norm_num, hs, simple_candidates_satisfy_equation 7 4 (SOutcome.sat 7) (by norm_num) hs⟩

end Inv
